import Mathlib

/-!
# Lunch.cpp: exchanging the leading and the last decimal digit

A shallow embedding of `src/Lunch.cpp` (the functions `power` and `main`)
and theorems about the value `main` prints.

Conventions of the embedding.

* A C++ `int` is a Lean `Int`; every arithmetic result that is stored in an
  `int` goes through `wrap32`, the two's complement reduction to 32 bits.
* `/` and `%` of C++ round towards zero: `Int.tdiv` and `Int.tmod`.
* The variable-length array `A` is a list of cells, a cell being `none`
  until it is written; a read or write outside the array, a read of an
  unwritten cell and a division by zero give `none` (undefined behaviour).
* A `for` loop is a recursive function on the number of iterations that
  are left.
-/

namespace Lunch

/-! ## Machine integers -/

/-- Smallest value of a 32-bit `int`. -/
def INT_MIN : Int := -2147483648

/-- Largest value of a 32-bit `int`. -/
def INT_MAX : Int := 2147483647

/-- Reduction of an exact integer to the 32-bit two's complement range. -/
def wrap32 (x : Int) : Int := (x + 2147483648) % 4294967296 - 2147483648

/-- The C++ quotient `a / b` of two `int`s: truncated, undefined for `b = 0`. -/
def idiv (a b : Int) : Option Int :=
  if b = 0 then none else some (wrap32 (Int.tdiv a b))

/-! ## `power` -/

/-- The loop `for (int i = 0; i < b; i++) w *= a;` of `power`, as a function
of the number of iterations left (`b - i`) and of the current `w`. -/
def powerLoop (a : Int) : Nat → Int → Int
  | 0, w => w
  | k + 1, w => powerLoop a k (wrap32 (w * a))

/-- The function `int power(int a, int b)`: `w = 1`, then `b` times `w *= a`
(no iteration at all when `b ≤ 0`). -/
def power (a b : Int) : Int := powerLoop a b.toNat 1

/-! ## `main` -/

/-- Auxiliary count for `ilog10`: how often `m` can be divided by ten before
it drops below ten (`fuel` bounds the number of divisions). -/
def log10Floor : Nat → Nat → Nat
  | 0, _ => 0
  | fuel + 1, m => if m < 10 then 0 else log10Floor fuel (m / 10) + 1

/-- Modelled from the spec: the library call `log10` of `math.h` and the
conversion `int(log10(n))` are not part of the repository; following §3 and
§4.1 step 1 of the spec the expression `int(log10(n))` is `floor(log10(n))`,
computed exactly. It is undefined (`none`) for `n ≤ 0`, where `log10` is
infinite or not a number. -/
def ilog10 (n : Int) : Option Int :=
  if 1 ≤ n then some (log10Floor n.toNat n.toNat : Nat) else none

/-- The write `A[i] = v`. -/
def store (A : List (Option Int)) (i v : Int) : Option (List (Option Int)) :=
  if 0 ≤ i ∧ i < A.length then some (A.set i.toNat (some v)) else none

/-- The read `A[i]`. -/
def load (A : List (Option Int)) (i : Int) : Option Int :=
  if 0 ≤ i then (A.get? i.toNat).join else none

/-- The first loop of `main`,
`for (int i = 0; i < int(log10(n)) + 1; i++) A[i] = int(n / power(10, i)) % 10;`
as a function of the number of iterations left, of `i` and of the array. -/
def fillLoop (n : Int) : Nat → Int → List (Option Int) → Option (List (Option Int))
  | 0, _, A => some A
  | k + 1, i, A =>
    (idiv n (power 10 i)).bind fun q =>
    (store A i (Int.tmod q 10)).bind fun A1 =>
    fillLoop n k (i + 1) A1

/-- The second loop of `main`,
`for (int i = int(log10(n)) - 1; i > 0; i--) w += A[i] * power(10, i);`
as a function of `i` (which is also the number of iterations left) and of `w`. -/
def sumLoop (A : List (Option Int)) : Nat → Int → Option Int
  | 0, w => some w
  | j + 1, w =>
    (load A ((j : Int) + 1)).bind fun a =>
    sumLoop A j (wrap32 (w + wrap32 (a * power 10 ((j : Int) + 1))))

/-- The array `A` of `main` after its first loop: `int A[int(log10(n)) + 1];`
followed by the loop that fills it. -/
def mainFill (n : Int) : Option (List (Option Int)) :=
  (ilog10 n).bind fun l =>
  fillLoop n (l + 1).toNat 0 (List.replicate (l + 1).toNat none)

/-- The value `w` that `main` prints on the input `n`. -/
def main (n : Int) : Option Int :=
  (ilog10 n).bind fun l =>
  (mainFill n).bind fun A =>
  (load A l).bind fun hi =>
  (load A 0).bind fun lo =>
  sumLoop A (l - 1).toNat (wrap32 (hi + wrap32 (lo * power 10 l)))

/-! ## The specification's vocabulary -/

/-- The spec's digit count `d = floor(log10(n)) + 1`. -/
def numDigits (n : Int) : Nat := Nat.log 10 n.toNat + 1

/-- The spec's `digit[i] = floor(n / 10^i) mod 10`. -/
def digit (n : Int) (i : Nat) : Int := n / 10 ^ i % 10

/-- The spec's formula of §4.1 step 4,
`lead*10^0 + first*10^(d-1) + Σ_{i=1}^{d-2} digit[i]*10^i`
with `lead = digit[d-1]` and `first = digit[0]`, in exact integers. -/
def specFormula (n : Int) : Int :=
  digit n (numDigits n - 1) * 10 ^ 0 + digit n 0 * 10 ^ (numDigits n - 1)
    + ((List.range' 1 (numDigits n - 2)).map fun i => digit n i * 10 ^ i).sum

/-- The spec's contract of §4.1: remove the leading decimal digit of `n` and
append it after the remaining digits. -/
def rotateSpec (n : Int) : Int :=
  n % 10 ^ (numDigits n - 1) * 10 + n / 10 ^ (numDigits n - 1)

/-- Sum of the middle terms `digit[j] * 10^j` for `1 ≤ j ≤ i`. -/
def midSum (n : Int) : Nat → Int
  | 0 => 0
  | i + 1 => midSum n i + digit n (i + 1) * 10 ^ (i + 1)

/-- The integer obtained from `n` by exchanging its leading and its last
decimal digit: the last digit at place `d-1`, the digits in between where
they were, the leading digit at place `0`. -/
def swapEnds (n : Int) : Int :=
  n % 10 * 10 ^ (numDigits n - 1) + (n % 10 ^ (numDigits n - 1) - n % 10)
    + n / 10 ^ (numDigits n - 1)

/-- The decimal digits of `n`, least-significant first. -/
def decDigits (n : Int) : List Int := (List.range (numDigits n)).map (digit n)

/-- The decimal digits of `n` read the same forwards and backwards. -/
def isPalindrome (n : Int) : Prop := decDigits n = (decDigits n).reverse

instance isPalindromeDecidable (n : Int) : Decidable (isPalindrome n) :=
  inferInstanceAs (Decidable (decDigits n = (decDigits n).reverse))

/-! ## The same program with overflow made visible

In the definitions above a result that does not fit in an `int` wraps
around. The definitions below follow the same source lines, except that an
arithmetic result outside the range of `int` ends the run with `none`: a run
that returns `some w` is one in which no computed value left the range.
The loop counters and the array length are left as they are: for an input
of type `int` they stay between -1 and 10. -/

/-- An exact arithmetic result, kept only when it is a value of type `int`. -/
def checked (x : Int) : Option Int :=
  if INT_MIN ≤ x ∧ x ≤ INT_MAX then some x else none

/-- The quotient `a / b`, undefined for `b = 0` and for a quotient out of range. -/
def idivC (a b : Int) : Option Int :=
  if b = 0 then none else checked (Int.tdiv a b)

/-- The loop `for (int i = 0; i < b; i++) w *= a;` of `power` with every
product `w * a` checked. -/
def powerLoopC (a : Int) : Nat → Int → Option Int
  | 0, w => some w
  | k + 1, w => (checked (w * a)).bind fun w1 => powerLoopC a k w1

/-- The function `int power(int a, int b)` with every product checked. -/
def powerC (a b : Int) : Option Int := powerLoopC a b.toNat 1

/-- The first loop of `main`, `A[i] = int(n / power(10, i)) % 10`, with the
call of `power` and the quotient checked. -/
def fillLoopC (n : Int) : Nat → Int → List (Option Int) → Option (List (Option Int))
  | 0, _, A => some A
  | k + 1, i, A =>
    (powerC 10 i).bind fun p =>
    (idivC n p).bind fun q =>
    (store A i (Int.tmod q 10)).bind fun A1 =>
    fillLoopC n k (i + 1) A1

/-- The second loop of `main`, `w += A[i] * power(10, i)`, with the call of
`power`, the product and the sum checked. -/
def sumLoopC (A : List (Option Int)) : Nat → Int → Option Int
  | 0, w => some w
  | j + 1, w =>
    (load A ((j : Int) + 1)).bind fun a =>
    (powerC 10 ((j : Int) + 1)).bind fun p =>
    (checked (a * p)).bind fun t =>
    (checked (w + t)).bind fun w1 =>
    sumLoopC A j w1

/-- The array `A` after the first loop, computed with checked arithmetic. -/
def mainFillC (n : Int) : Option (List (Option Int)) :=
  (ilog10 n).bind fun l =>
  fillLoopC n (l + 1).toNat 0 (List.replicate (l + 1).toNat none)

/-- The value `main` prints, computed with checked arithmetic:
`w = A[int(log10(n))] + A[0] * power(10, int(log10(n)))` and then the second
loop. -/
def mainC (n : Int) : Option Int :=
  (ilog10 n).bind fun l =>
  (mainFillC n).bind fun A =>
  (load A l).bind fun hi =>
  (load A 0).bind fun lo =>
  (powerC 10 l).bind fun p =>
  (checked (lo * p)).bind fun t =>
  (checked (hi + t)).bind fun w0 =>
  sumLoopC A (l - 1).toNat w0

/-! ## The indices at which `main` accesses `A` -/

/-- The indices `i` at which the first loop of `main` writes `A[i]`, in the
order of the writes, as a function of the number of iterations left and of
the current `i` (the same recursion as `fillLoop`). -/
def fillIndices : Nat → Int → List Int
  | 0, _ => []
  | k + 1, i => i :: fillIndices k (i + 1)

/-- The indices `i` at which the second loop of `main` reads `A[i]`, in the
order of the reads, as a function of the starting `i` (the same recursion as
`sumLoop`). -/
def sumIndices : Nat → List Int
  | 0 => []
  | j + 1 => ((j : Int) + 1) :: sumIndices j

/-! ## Basic facts -/

theorem wrap32_eq_self {x : Int} (h0 : -2147483648 ≤ x) (h1 : x ≤ 2147483647) :
    wrap32 x = x := by
  unfold wrap32; omega

theorem log10Floor_eq_log (fuel m : Nat) (h : m ≤ fuel) :
    log10Floor fuel m = Nat.log 10 m := by
  induction fuel generalizing m with
  | zero =>
    have : m = 0 := by omega
    subst this; simp [log10Floor]
  | succ f ih =>
    unfold log10Floor
    split
    · rename_i hlt
      exact (Nat.log_of_lt hlt).symm
    · rename_i hge
      have h10 : 10 ≤ m := by omega
      rw [Nat.log_of_one_lt_of_le (by norm_num) h10, ih (m / 10) (by omega)]

theorem ilog10_eq {n : Int} (h : 1 ≤ n) : ilog10 n = some ((numDigits n : Int) - 1) := by
  unfold ilog10 numDigits
  rw [if_pos h, log10Floor_eq_log _ _ le_rfl]
  simp

theorem numDigits_le_ten {n : Int} (h1 : 1 ≤ n) (h2 : n ≤ INT_MAX) : numDigits n ≤ 10 := by
  unfold numDigits
  have hlt : n.toNat < 10 ^ 10 := by
    unfold INT_MAX at h2; omega
  have := Nat.log_lt_of_lt_pow (by omega) hlt
  omega

theorem powerLoop_ten (k : Nat) (w : Int) (h0 : 0 ≤ w) (h1 : w * 10 ^ k ≤ 2147483647) :
    powerLoop 10 k w = w * 10 ^ k := by
  induction k generalizing w with
  | zero => simp [powerLoop]
  | succ k ih =>
    have hpos : (0 : Int) < 10 ^ k := by positivity
    have e : w * 10 ^ (k + 1) = w * 10 * 10 ^ k := by ring
    have hle : w * 10 ≤ w * 10 * 10 ^ k := le_mul_of_one_le_right (by omega) (by omega)
    unfold powerLoop
    rw [wrap32_eq_self (by omega) (by omega), ih (w * 10) (by omega) (by omega), e]

theorem power_ten (i : Nat) (h : i ≤ 9) : power 10 (i : Int) = 10 ^ i := by
  unfold power
  have hb : (10 : Int) ^ i ≤ 10 ^ 9 := pow_le_pow_right₀ (by norm_num) h
  rw [Int.toNat_ofNat, powerLoop_ten i 1 (by norm_num) (by norm_num at hb ⊢; omega)]
  simp


theorem idiv_power_ten {n : Int} (h1 : 0 ≤ n) (h2 : n ≤ INT_MAX) (i : Nat) (hi : i ≤ 9) :
    idiv n (power 10 (i : Int)) = some (n / 10 ^ i) := by
  have hpos : (0 : Int) < 10 ^ i := by positivity
  have hq0 : 0 ≤ n / 10 ^ i := Int.ediv_nonneg h1 hpos.le
  have hq1 : n / 10 ^ i ≤ n := Int.ediv_le_self _ h1
  unfold INT_MAX at h2
  unfold idiv
  rw [power_ten i hi, if_neg hpos.ne', Int.tdiv_eq_ediv h1 hpos.le,
    wrap32_eq_self (by omega) (by omega)]

theorem tmod_ten_eq_digit {n : Int} (h1 : 0 ≤ n) (i : Nat) :
    Int.tmod (n / 10 ^ i) 10 = digit n i := by
  have hpos : (0 : Int) < 10 ^ i := by positivity
  unfold digit
  exact Int.tmod_eq_emod (Int.ediv_nonneg h1 hpos.le) (by norm_num)

theorem store_append (pre : List (Option Int)) (k : Nat) (v : Int) :
    store (pre ++ List.replicate (k + 1) none) (pre.length : Int) v
      = some ((pre ++ [some v]) ++ List.replicate k none) := by
  unfold store
  rw [if_pos (by simp)]
  simp [List.replicate_succ]

theorem fillLoop_append {n : Int} (h1 : 0 ≤ n) (h2 : n ≤ INT_MAX) (k : Nat)
    (pre : List (Option Int)) (hk : pre.length + k ≤ 10) :
    fillLoop n k (pre.length : Int) (pre ++ List.replicate k none)
      = some (pre ++ (List.range' pre.length k).map fun j => some (digit n j)) := by
  induction k generalizing pre with
  | zero => simp [fillLoop]
  | succ k ih =>
    have hlen : ((pre.length : Int) + 1) = ((pre ++ [some (digit n pre.length)]).length : Int) := by
      simp
    unfold fillLoop
    rw [idiv_power_ten h1 h2 _ (by omega), Option.some_bind, tmod_ten_eq_digit h1,
      store_append, Option.some_bind, hlen, ih _ (by simp; omega)]
    simp [List.range'_succ]

theorem mainFill_eq {n : Int} (h1 : 1 ≤ n) (h2 : n ≤ INT_MAX) :
    mainFill n = some ((List.range (numDigits n)).map fun j => some (digit n j)) := by
  have hd := numDigits_le_ten h1 h2
  have hpos : 1 ≤ numDigits n := by unfold numDigits; omega
  unfold mainFill
  rw [ilog10_eq h1, Option.some_bind]
  have e : ((numDigits n : Int) - 1 + 1).toNat = numDigits n := by simp
  rw [e]
  have := fillLoop_append (by omega) h2 (numDigits n) [] (by simpa using hd)
  simpa [List.range_eq_range'] using this


theorem digit_nonneg (n : Int) (i : Nat) : 0 ≤ digit n i := by
  unfold digit; omega

theorem digit_le_nine (n : Int) (i : Nat) : digit n i ≤ 9 := by
  unfold digit; omega

theorem midSum_nonneg (n : Int) (i : Nat) : 0 ≤ midSum n i := by
  induction i with
  | zero => simp [midSum]
  | succ i ih =>
    have := digit_nonneg n (i + 1)
    have hp : (0 : Int) ≤ 10 ^ (i + 1) := by positivity
    have := mul_nonneg this hp
    unfold midSum; omega

theorem midSum_eq_sum (n : Int) (i : Nat) :
    ((List.range' 1 i).map fun j => digit n j * 10 ^ j).sum = midSum n i := by
  induction i with
  | zero => simp [midSum]
  | succ i ih =>
    rw [List.range'_1_concat, List.map_append, List.sum_append, ih]
    simp [midSum, Nat.add_comm]

theorem load_digits (n : Int) (d j : Nat) (hj : j < d) :
    load ((List.range d).map fun j => some (digit n j)) (j : Int) = some (digit n j) := by
  unfold load
  simp [hj]

theorem sumLoop_digits (n : Int) (d : Nat) (hd : d ≤ 10) (i : Nat) (hi : i < d) (w : Int)
    (h0 : 0 ≤ w) (h1 : w + midSum n i ≤ 2147483647) :
    sumLoop ((List.range d).map fun j => some (digit n j)) i w = some (w + midSum n i) := by
  induction i generalizing w with
  | zero => simp [sumLoop, midSum]
  | succ i ih =>
    have hdig := digit_nonneg n (i + 1)
    have hp : (0 : Int) ≤ 10 ^ (i + 1) := by positivity
    have ht := mul_nonneg hdig hp
    have hm := midSum_nonneg n i
    have e : midSum n (i + 1) = midSum n i + digit n (i + 1) * 10 ^ (i + 1) := rfl
    have hl := load_digits n d (i + 1) hi
    have hpw := power_ten (i + 1) (by omega)
    push_cast at hl hpw
    have hw1 : wrap32 (digit n (i + 1) * 10 ^ (i + 1)) = digit n (i + 1) * 10 ^ (i + 1) :=
      wrap32_eq_self (by omega) (by omega)
    unfold sumLoop
    rw [hl, Option.some_bind, hpw, hw1, wrap32_eq_self (by omega) (by omega),
      ih (by omega) _ (by omega) (by omega), e]
    congr 1; ring


theorem specFormula_eq (n : Int) :
    specFormula n = digit n (numDigits n - 1) + digit n 0 * 10 ^ (numDigits n - 1)
      + midSum n (numDigits n - 2) := by
  unfold specFormula
  rw [midSum_eq_sum]; simp

theorem main_eq_of_fits {n : Int} (h1 : 1 ≤ n) (h2 : n ≤ INT_MAX)
    (h3 : specFormula n ≤ INT_MAX) : main n = some (specFormula n) := by
  have hd := numDigits_le_ten h1 h2
  have hpos : 1 ≤ numDigits n := by unfold numDigits; omega
  have hlead := digit_nonneg n (numDigits n - 1)
  have hfirst := digit_nonneg n 0
  have hp : (0 : Int) ≤ 10 ^ (numDigits n - 1) := by positivity
  have ht := mul_nonneg hfirst hp
  have hm := midSum_nonneg n (numDigits n - 2)
  have hl1 := load_digits n (numDigits n) (numDigits n - 1) (by omega)
  have hl0 := load_digits n (numDigits n) 0 (by omega)
  have hpw := power_ten (numDigits n - 1) (by omega)
  have ec : ((numDigits n - 1 : Nat) : Int) = (numDigits n : Int) - 1 := by omega
  have e2 : ((numDigits n : Int) - 1 - 1).toNat = numDigits n - 2 := by omega
  rw [ec] at hl1 hpw
  rw [specFormula_eq] at h3 ⊢
  unfold INT_MAX at h3
  have hw1 : wrap32 (digit n 0 * 10 ^ (numDigits n - 1)) = digit n 0 * 10 ^ (numDigits n - 1) :=
    wrap32_eq_self (by omega) (by omega)
  unfold main
  rw [ilog10_eq h1, Option.some_bind, mainFill_eq h1 h2, Option.some_bind, hl1,
    Option.some_bind]
  simp only [Nat.cast_zero] at hl0
  rw [hl0, Option.some_bind, hpw, hw1, wrap32_eq_self (by omega) (by omega), e2,
    sumLoop_digits n _ hd _ (by omega) _ (by omega) (by omega)]


/-! ## Decimal digits -/

theorem pow_le_self_of_pos {n : Int} (h1 : 1 ≤ n) : (10 : Int) ^ (numDigits n - 1) ≤ n := by
  have h := Nat.pow_log_le_self 10 (x := n.toNat) (by omega)
  have hc : ((10 ^ Nat.log 10 n.toNat : Nat) : Int) ≤ (n.toNat : Int) := by exact_mod_cast h
  rw [Int.toNat_of_nonneg (by omega)] at hc
  simpa [numDigits] using hc

theorem lt_pow_numDigits {n : Int} (h1 : 1 ≤ n) : n < (10 : Int) ^ numDigits n := by
  have h := Nat.lt_pow_succ_log_self (b := 10) (by norm_num) n.toNat
  have hc : (n.toNat : Int) < ((10 ^ (Nat.log 10 n.toNat).succ : Nat) : Int) := by exact_mod_cast h
  rw [Int.toNat_of_nonneg (by omega)] at hc
  simpa [numDigits] using hc

theorem numDigits_pos (n : Int) : 1 ≤ numDigits n := by
  unfold numDigits; omega

theorem pow_numDigits (n : Int) :
    (10 : Int) ^ numDigits n = 10 * 10 ^ (numDigits n - 1) := by
  have h := numDigits_pos n
  obtain ⟨k, hk⟩ : ∃ k, numDigits n = k + 1 := ⟨numDigits n - 1, by omega⟩
  rw [hk]; simp [pow_succ, mul_comm]

theorem numDigits_eq_of_bounds {n : Int} (k : Nat) (h0 : (10 : Int) ^ k ≤ n)
    (h1 : n < (10 : Int) ^ (k + 1)) : numDigits n = k + 1 := by
  have hpos : (0 : Int) < 10 ^ k := by positivity
  have hn : (n.toNat : Int) = n := Int.toNat_of_nonneg (by omega)
  have a0 : 10 ^ k ≤ n.toNat := by
    have : ((10 ^ k : Nat) : Int) ≤ (n.toNat : Int) := by rw [hn]; exact_mod_cast h0
    exact_mod_cast this
  have a1 : n.toNat < 10 ^ (k + 1) := by
    have : (n.toNat : Int) < ((10 ^ (k + 1) : Nat) : Int) := by rw [hn]; exact_mod_cast h1
    exact_mod_cast this
  unfold numDigits
  rw [Nat.log_eq_of_pow_le_of_lt_pow a0 a1]

theorem numDigits_ge_two {n : Int} (h : 10 ≤ n) : 2 ≤ numDigits n := by
  by_contra hc
  have h1 : numDigits n = 1 := by have := numDigits_pos n; omega
  have := lt_pow_numDigits (n := n) (by omega)
  rw [h1] at this
  omega

theorem numDigits_eq_one {n : Int} (h1 : 1 ≤ n) (h : n < 10) : numDigits n = 1 :=
  numDigits_eq_of_bounds 0 (by simpa using h1) (by simpa using h)

theorem digit_zero (n : Int) : digit n 0 = n % 10 := by
  simp [digit]

theorem digit_top {n : Int} (h1 : 1 ≤ n) :
    digit n (numDigits n - 1) = n / 10 ^ (numDigits n - 1) ∧
      1 ≤ n / 10 ^ (numDigits n - 1) ∧ n / 10 ^ (numDigits n - 1) ≤ 9 := by
  have hpos : (0 : Int) < 10 ^ (numDigits n - 1) := by positivity
  have hlo := pow_le_self_of_pos h1
  have hhi := lt_pow_numDigits h1
  rw [pow_numDigits] at hhi
  have q1 : 1 ≤ n / 10 ^ (numDigits n - 1) := (Int.le_ediv_iff_mul_le hpos).2 (by simpa using hlo)
  have q9 : n / 10 ^ (numDigits n - 1) < 10 := (Int.ediv_lt_iff_lt_mul hpos).2 (by linarith)
  refine ⟨?_, q1, by omega⟩
  unfold digit
  omega

theorem mod_pow_succ_int {n : Int} (h0 : 0 ≤ n) (k : Nat) :
    n % 10 ^ (k + 1) = n % 10 ^ k + 10 ^ k * (n / 10 ^ k % 10) := by
  obtain ⟨m, rfl⟩ := Int.eq_ofNat_of_zero_le h0
  have := Nat.mod_pow_succ (x := m) (b := 10) (k := k)
  exact_mod_cast this

theorem digit_zero_add_midSum {n : Int} (h0 : 0 ≤ n) (i : Nat) :
    digit n 0 + midSum n i = n % 10 ^ (i + 1) := by
  induction i with
  | zero => simp [midSum, digit]
  | succ i ih =>
    rw [mod_pow_succ_int h0 (i + 1), ← ih]
    simp only [midSum, digit]
    ring


theorem midSum_eq_of_ge_two {n : Int} (h0 : 0 ≤ n) (hd : 2 ≤ numDigits n) :
    midSum n (numDigits n - 2) = n % 10 ^ (numDigits n - 1) - n % 10 := by
  have h := digit_zero_add_midSum h0 (numDigits n - 2)
  have e : numDigits n - 2 + 1 = numDigits n - 1 := by omega
  rw [e, digit_zero] at h
  omega

theorem specFormula_eq_swapEnds {n : Int} (h : 10 ≤ n) : specFormula n = swapEnds n := by
  have hd := numDigits_ge_two h
  rw [specFormula_eq, midSum_eq_of_ge_two (by omega) hd, (digit_top (by omega)).1, digit_zero]
  unfold swapEnds
  ring

theorem specFormula_of_lt_ten {n : Int} (h1 : 1 ≤ n) (h : n < 10) : specFormula n = 2 * n := by
  rw [specFormula_eq, numDigits_eq_one h1 h]
  simp [midSum, digit]
  omega

theorem mod_pow_mod_ten (n : Int) (k : Nat) (hk : 1 ≤ k) : n % 10 ^ k % 10 = n % 10 := by
  obtain ⟨j, rfl⟩ : ∃ j, k = j + 1 := ⟨k - 1, by omega⟩
  exact Int.emod_emod_of_dvd n (Dvd.intro_left (10 ^ j) rfl)

theorem specFormula_lt_pow {n : Int} (h : 10 ≤ n) : specFormula n < 10 ^ numDigits n := by
  have hd := numDigits_ge_two h
  have hpos : (0 : Int) < 10 ^ (numDigits n - 1) := by positivity
  have ht := digit_top (n := n) (by omega)
  have hm := mod_pow_mod_ten n (numDigits n - 1) (by omega)
  have hr := Int.emod_lt_of_pos n hpos
  have hr0 := Int.emod_nonneg n hpos.ne'
  have h10 : (10 : Int) ∣ 10 ^ (numDigits n - 1) := dvd_pow_self 10 (by omega)
  obtain ⟨c, hc⟩ := h10
  rw [specFormula_eq_swapEnds h, pow_numDigits]
  unfold swapEnds
  generalize n % 10 ^ (numDigits n - 1) = r at *
  generalize n / 10 ^ (numDigits n - 1) = q at *
  generalize (10 : Int) ^ (numDigits n - 1) = P at *
  have h9 : n % 10 * P ≤ 9 * P := by
    have : n % 10 ≤ 9 := by omega
    exact mul_le_mul_of_nonneg_right this hpos.le
  omega


theorem pow_numDigits_le_of_lt {m : Int} (k : Nat) (h1 : 1 ≤ m) (h : m < 10 ^ k) :
    (10 : Int) ^ numDigits m ≤ 10 ^ k := by
  have hlo := pow_le_self_of_pos h1
  have hlt : (10 : Int) ^ (numDigits m - 1) < 10 ^ k := lt_of_le_of_lt hlo h
  have hk : numDigits m - 1 < k := (pow_lt_pow_iff_right₀ (by norm_num)).1 hlt
  exact pow_le_pow_right₀ (by norm_num) (by have := numDigits_pos m; omega)

theorem specFormula_fits_of_lt {n : Int} (h1 : 1 ≤ n) (h : n < 10 ^ 9) :
    specFormula n ≤ INT_MAX := by
  unfold INT_MAX
  rcases lt_or_le n 10 with hlt | hge
  · rw [specFormula_of_lt_ten h1 hlt]; omega
  · have hs := specFormula_lt_pow hge
    have hp := pow_numDigits_le_of_lt 9 h1 h
    norm_num at hp
    omega

theorem swap_of_mult_ten {n : Int} (h : 10 ≤ n) (h0 : n % 10 = 0) :
    1 ≤ specFormula n ∧ specFormula n < 10 ^ (numDigits n - 1) ∧
      (specFormula n < 10 → 10 * specFormula n ≤ n) := by
  have hd := numDigits_ge_two h
  have hpos : (0 : Int) < 10 ^ (numDigits n - 1) := by positivity
  have ht := digit_top (n := n) (by omega)
  have hm := mod_pow_mod_ten n (numDigits n - 1) (by omega)
  have hr := Int.emod_lt_of_pos n hpos
  have hr0 := Int.emod_nonneg n hpos.ne'
  have hdiv := Int.ediv_add_emod n (10 ^ (numDigits n - 1))
  have h10 : (10 : Int) ∣ 10 ^ (numDigits n - 1) := dvd_pow_self 10 (by omega)
  obtain ⟨c, hc⟩ := h10
  rw [specFormula_eq_swapEnds h]
  unfold swapEnds
  rw [h0]
  generalize n % 10 ^ (numDigits n - 1) = r at *
  generalize n / 10 ^ (numDigits n - 1) = q at *
  generalize (10 : Int) ^ (numDigits n - 1) = P at *
  refine ⟨by omega, by omega, fun hs => ?_⟩
  have hq : 10 * q ≤ P * q := mul_le_mul_of_nonneg_right (by omega) (by omega)
  omega

theorem twice_ne_of_mult_ten {n : Int} (h : 10 ≤ n) (h2 : n ≤ INT_MAX)
    (h3 : specFormula n ≤ INT_MAX) (h0 : n % 10 = 0) : (main n).bind main ≠ some n := by
  obtain ⟨m1, mP, msmall⟩ := swap_of_mult_ten h h0
  have hP := pow_le_self_of_pos (n := n) (by omega)
  rw [main_eq_of_fits (by omega) h2 h3, Option.some_bind]
  generalize specFormula n = m at *
  have key : specFormula m < n := by
    rcases lt_or_le m 10 with hlt | hge
    · rw [specFormula_of_lt_ten m1 hlt]
      have := msmall hlt
      omega
    · have := specFormula_lt_pow hge
      have := pow_numDigits_le_of_lt _ m1 mP
      omega
  rw [main_eq_of_fits m1 (by omega) (by omega)]
  intro hc
  have := Option.some.inj hc
  omega

theorem sum_range_digits (n : Int) (k : Nat) :
    ((List.range (k + 1)).map fun i => digit n i * 10 ^ i).sum = digit n 0 + midSum n k := by
  induction k with
  | zero => simp [midSum, List.range_succ]
  | succ k ih =>
    rw [List.range_succ, List.map_append, List.sum_append, ih]
    simp [midSum, add_assoc]

theorem sum_digits_eq_self {n : Int} (h1 : 1 ≤ n) :
    ((List.range (numDigits n)).map fun i => digit n i * 10 ^ i).sum = n := by
  have hd := numDigits_pos n
  have hlt := lt_pow_numDigits h1
  obtain ⟨k, hk⟩ : ∃ k, numDigits n = k + 1 := ⟨numDigits n - 1, by omega⟩
  rw [hk] at hlt ⊢
  rw [sum_range_digits, digit_zero_add_midSum (by omega)]
  exact Int.emod_eq_of_lt (by omega) hlt

theorem get?_digits (n : Int) (d i : Nat) (hi : i < d) :
    ((List.range d).map (digit n)).get? i = some (digit n i) := by
  simp [List.get?_eq_getElem?, hi]

theorem getD_digits (n : Int) (d i : Nat) (hi : i < d) :
    ((List.range d).map (digit n)).getD i 0 = digit n i := by
  simp [List.getD_eq_getElem?_getD, hi]

/-! ## Values at the inputs used below -/

theorem numDigits_12 : numDigits 12 = 2 :=
  numDigits_eq_of_bounds 1 (by decide) (by decide)

theorem numDigits_105 : numDigits 105 = 3 :=
  numDigits_eq_of_bounds 2 (by decide) (by decide)

theorem numDigits_123 : numDigits 123 = 3 :=
  numDigits_eq_of_bounds 2 (by decide) (by decide)

theorem numDigits_4567 : numDigits 4567 = 4 :=
  numDigits_eq_of_bounds 3 (by decide) (by decide)

theorem specFormula_12 : specFormula 12 = 21 := by
  unfold specFormula; rw [numDigits_12]; decide

theorem specFormula_4567 : specFormula 4567 = 7564 := by
  unfold specFormula; rw [numDigits_4567]; decide

theorem swapEnds_123 : swapEnds 123 = 321 := by
  unfold swapEnds; rw [numDigits_123]; decide

theorem rotateSpec_105 : rotateSpec 105 = 51 := by
  unfold rotateSpec; rw [numDigits_105]; decide

theorem rotateSpec_123 : rotateSpec 123 = 231 := by
  unfold rotateSpec; rw [numDigits_123]; decide

theorem not_isPalindrome_12 : ¬ isPalindrome 12 := by
  unfold isPalindrome decDigits; rw [numDigits_12]; decide

/-! ## Numbers written as `c * 10^k + mid + e` -/

theorem shape_div_mod {k : Nat} (hk : 1 ≤ k) {c mid e x : Int} (he0 : 0 ≤ e) (he9 : e ≤ 9)
    (hm0 : 0 ≤ mid) (hm10 : mid % 10 = 0) (hmP : mid + 10 ≤ 10 ^ k)
    (hx : x = c * 10 ^ k + mid + e) :
    x / 10 ^ k = c ∧ x % 10 ^ k = mid + e ∧ x % 10 = e := by
  have hpos : (0 : Int) < 10 ^ k := by positivity
  have hdm : x / 10 ^ k = c ∧ x % 10 ^ k = mid + e :=
    (Int.ediv_emod_unique hpos).2 ⟨by rw [hx]; ring, by omega, by omega⟩
  refine ⟨hdm.1, hdm.2, ?_⟩
  obtain ⟨j, rfl⟩ : ∃ j, k = j + 1 := ⟨k - 1, by omega⟩
  have e1 : c * 10 ^ (j + 1) = 10 * (c * 10 ^ j) := by ring
  rw [hx, e1]
  generalize c * 10 ^ j = t
  omega

theorem shape_bounds {k : Nat} {c mid e x : Int} (hc1 : 1 ≤ c) (hc9 : c ≤ 9)
    (he0 : 0 ≤ e) (he9 : e ≤ 9) (hm0 : 0 ≤ mid) (hmP : mid + 10 ≤ 10 ^ k)
    (hx : x = c * 10 ^ k + mid + e) : 10 ^ k ≤ x ∧ x < 10 ^ (k + 1) := by
  have hpos : (0 : Int) < 10 ^ k := by positivity
  have h1 : 1 * 10 ^ k ≤ c * 10 ^ k := mul_le_mul_of_nonneg_right hc1 hpos.le
  have h9 : c * 10 ^ k ≤ 9 * 10 ^ k := mul_le_mul_of_nonneg_right hc9 hpos.le
  have e1 : (10 : Int) ^ (k + 1) = 10 * 10 ^ k := by ring
  rw [e1, hx]
  constructor <;> omega

theorem shape_swapEnds {k : Nat} (hk : 1 ≤ k) {c mid e x : Int} (hc1 : 1 ≤ c) (hc9 : c ≤ 9)
    (he0 : 0 ≤ e) (he9 : e ≤ 9) (hm0 : 0 ≤ mid) (hm10 : mid % 10 = 0)
    (hmP : mid + 10 ≤ 10 ^ k) (hx : x = c * 10 ^ k + mid + e) :
    numDigits x = k + 1 ∧ swapEnds x = e * 10 ^ k + mid + c := by
  obtain ⟨b0, b1⟩ := shape_bounds hc1 hc9 he0 he9 hm0 hmP hx
  obtain ⟨d1, d2, d3⟩ := shape_div_mod hk he0 he9 hm0 hm10 hmP hx
  have hd : numDigits x = k + 1 := numDigits_eq_of_bounds k b0 b1
  refine ⟨hd, ?_⟩
  unfold swapEnds
  rw [hd, Nat.add_sub_cancel, d1, d2, d3]
  ring

theorem shape_digit {k : Nat} {c mid e x : Int} (he0 : 0 ≤ e) (he9 : e ≤ 9)
    (hm10 : mid % 10 = 0) (hx : x = c * 10 ^ k + mid + e) (i : Nat) (hi1 : 1 ≤ i)
    (hik : i < k) : digit x i = mid / 10 ^ i % 10 := by
  obtain ⟨j, rfl⟩ : ∃ j, i = j + 1 := ⟨i - 1, by omega⟩
  obtain ⟨r, rfl⟩ : ∃ r, k = (j + 1) + (r + 1) := ⟨k - (j + 1) - 1, by omega⟩
  have hpos : (0 : Int) < 10 ^ (j + 1) := by positivity
  have e1 : c * 10 ^ (j + 1 + (r + 1)) = (10 * (c * 10 ^ r)) * 10 ^ (j + 1) := by ring
  have e2 : (10 : Int) ^ (j + 1) = 10 * 10 ^ j := by ring
  have e3 : (mid + e) / 10 ^ (j + 1) = mid / 10 ^ (j + 1) := by
    obtain ⟨m, hm⟩ := Int.dvd_of_emod_eq_zero hm10
    have hT : (0 : Int) < 10 ^ j := by positivity
    have hq := Int.ediv_add_emod m (10 ^ j)
    have hR0 := Int.emod_nonneg m hT.ne'
    have hR1 := Int.emod_lt_of_pos m hT
    have hA : (mid + e) / (10 * 10 ^ j) = m / 10 ^ j :=
      ((Int.ediv_emod_unique (by positivity)).2
        ⟨show 10 * (m % 10 ^ j) + e + 10 * 10 ^ j * (m / 10 ^ j) = mid + e by
          rw [hm]; linear_combination 10 * hq, by omega, by omega⟩).1
    have hB : mid / (10 * 10 ^ j) = m / 10 ^ j := by
      rw [hm, Int.mul_ediv_mul_of_pos _ _ (by norm_num)]
    rw [e2, hA, hB]
  unfold digit
  rw [hx, add_assoc, add_comm, e1, Int.add_mul_ediv_right _ _ hpos.ne', e3]
  omega

/-- Every `n ≥ 10` is `q * 10^k + mid + a` with `k = d - 1`, leading digit `q`,
last digit `a` and middle part `mid`. -/
theorem shape_of_ge_ten {n : Int} (h : 10 ≤ n) :
    ∃ q mid a : Int, 1 ≤ numDigits n - 1 ∧ 1 ≤ q ∧ q ≤ 9 ∧ 0 ≤ a ∧ a ≤ 9 ∧ 0 ≤ mid ∧
      mid % 10 = 0 ∧ mid + 10 ≤ 10 ^ (numDigits n - 1) ∧
      n = q * 10 ^ (numDigits n - 1) + mid + a ∧ a = n % 10 ∧
      q = digit n (numDigits n - 1) ∧
      specFormula n = a * 10 ^ (numDigits n - 1) + mid + q := by
  have hd := numDigits_ge_two h
  have hpos : (0 : Int) < 10 ^ (numDigits n - 1) := by positivity
  have ht := digit_top (n := n) (by omega)
  have hm := mod_pow_mod_ten n (numDigits n - 1) (by omega)
  have hr := Int.emod_lt_of_pos n hpos
  have hr0 := Int.emod_nonneg n hpos.ne'
  have hdiv := Int.ediv_add_emod n (10 ^ (numDigits n - 1))
  have h10 : (10 : Int) ∣ 10 ^ (numDigits n - 1) := dvd_pow_self 10 (by omega)
  obtain ⟨c, hc⟩ := h10
  refine ⟨n / 10 ^ (numDigits n - 1), n % 10 ^ (numDigits n - 1) - n % 10, n % 10,
    by omega, ht.2.1, ht.2.2, by omega, by omega, by omega, by omega, by omega, ?_, rfl,
    ht.1.symm, ?_⟩
  · rw [mul_comm]; omega
  · rw [specFormula_eq_swapEnds h]; unfold swapEnds; ring

/-! ## The run with checked arithmetic -/

theorem checked_eq_some {x : Int} (h0 : -2147483648 ≤ x) (h1 : x ≤ 2147483647) :
    checked x = some x := by
  unfold checked INT_MIN INT_MAX
  rw [if_pos ⟨h0, h1⟩]

theorem powerLoopC_ten (k : Nat) (w : Int) (h0 : 0 ≤ w) (h1 : w * 10 ^ k ≤ 2147483647) :
    powerLoopC 10 k w = some (w * 10 ^ k) := by
  induction k generalizing w with
  | zero => simp [powerLoopC]
  | succ k ih =>
    have hpos : (0 : Int) < 10 ^ k := by positivity
    have e : w * 10 ^ (k + 1) = w * 10 * 10 ^ k := by ring
    have hle : w * 10 ≤ w * 10 * 10 ^ k := le_mul_of_one_le_right (by omega) (by omega)
    unfold powerLoopC
    rw [checked_eq_some (by omega) (by omega), Option.some_bind,
      ih (w * 10) (by omega) (by omega), e]

theorem powerC_ten (i : Nat) (h : i ≤ 9) : powerC 10 (i : Int) = some (10 ^ i) := by
  unfold powerC
  have hb : (10 : Int) ^ i ≤ 10 ^ 9 := pow_le_pow_right₀ (by norm_num) h
  rw [Int.toNat_ofNat, powerLoopC_ten i 1 (by norm_num) (by norm_num at hb ⊢; omega)]
  simp

theorem idivC_pow_ten {n : Int} (h1 : 0 ≤ n) (h2 : n ≤ INT_MAX) (i : Nat) :
    idivC n (10 ^ i) = some (n / 10 ^ i) := by
  have hpos : (0 : Int) < 10 ^ i := by positivity
  have hq0 : 0 ≤ n / 10 ^ i := Int.ediv_nonneg h1 hpos.le
  have hq1 : n / 10 ^ i ≤ n := Int.ediv_le_self _ h1
  unfold INT_MAX at h2
  unfold idivC
  rw [if_neg hpos.ne', Int.tdiv_eq_ediv h1 hpos.le, checked_eq_some (by omega) (by omega)]

theorem fillLoopC_append {n : Int} (h1 : 0 ≤ n) (h2 : n ≤ INT_MAX) (k : Nat)
    (pre : List (Option Int)) (hk : pre.length + k ≤ 10) :
    fillLoopC n k (pre.length : Int) (pre ++ List.replicate k none)
      = some (pre ++ (List.range' pre.length k).map fun j => some (digit n j)) := by
  induction k generalizing pre with
  | zero => simp [fillLoopC]
  | succ k ih =>
    have hlen : ((pre.length : Int) + 1) = ((pre ++ [some (digit n pre.length)]).length : Int) := by
      simp
    unfold fillLoopC
    rw [powerC_ten _ (by omega), Option.some_bind, idivC_pow_ten h1 h2, Option.some_bind,
      tmod_ten_eq_digit h1, store_append, Option.some_bind, hlen, ih _ (by simp; omega)]
    simp [List.range'_succ]

theorem mainFillC_eq {n : Int} (h1 : 1 ≤ n) (h2 : n ≤ INT_MAX) :
    mainFillC n = some ((List.range (numDigits n)).map fun j => some (digit n j)) := by
  have hd := numDigits_le_ten h1 h2
  unfold mainFillC
  rw [ilog10_eq h1, Option.some_bind]
  have e : ((numDigits n : Int) - 1 + 1).toNat = numDigits n := by simp
  rw [e]
  have := fillLoopC_append (by omega) h2 (numDigits n) [] (by simpa using hd)
  simpa [List.range_eq_range'] using this

theorem sumLoopC_digits (n : Int) (d : Nat) (hd : d ≤ 10) (i : Nat) (hi : i < d) (w : Int)
    (h0 : 0 ≤ w) (h1 : w + midSum n i ≤ 2147483647) :
    sumLoopC ((List.range d).map fun j => some (digit n j)) i w = some (w + midSum n i) := by
  induction i generalizing w with
  | zero => simp [sumLoopC, midSum]
  | succ i ih =>
    have hdig := digit_nonneg n (i + 1)
    have hp : (0 : Int) ≤ 10 ^ (i + 1) := by positivity
    have ht := mul_nonneg hdig hp
    have hm := midSum_nonneg n i
    have e : midSum n (i + 1) = midSum n i + digit n (i + 1) * 10 ^ (i + 1) := rfl
    have hl := load_digits n d (i + 1) hi
    have hpw := powerC_ten (i + 1) (by omega)
    push_cast at hl hpw
    unfold sumLoopC
    rw [hl, Option.some_bind, hpw, Option.some_bind, checked_eq_some (by omega) (by omega),
      Option.some_bind, checked_eq_some (by omega) (by omega), Option.some_bind,
      ih (by omega) _ (by omega) (by omega), e]
    congr 1; ring

theorem mainC_eq_of_fits {n : Int} (h1 : 1 ≤ n) (h2 : n ≤ INT_MAX)
    (h3 : specFormula n ≤ INT_MAX) : mainC n = some (specFormula n) := by
  have hd := numDigits_le_ten h1 h2
  have hpos : 1 ≤ numDigits n := by unfold numDigits; omega
  have hlead := digit_nonneg n (numDigits n - 1)
  have hfirst := digit_nonneg n 0
  have hp : (0 : Int) ≤ 10 ^ (numDigits n - 1) := by positivity
  have ht := mul_nonneg hfirst hp
  have hm := midSum_nonneg n (numDigits n - 2)
  have hl1 := load_digits n (numDigits n) (numDigits n - 1) (by omega)
  have hl0 := load_digits n (numDigits n) 0 (by omega)
  have hpw := powerC_ten (numDigits n - 1) (by omega)
  have ec : ((numDigits n - 1 : Nat) : Int) = (numDigits n : Int) - 1 := by omega
  have e2 : ((numDigits n : Int) - 1 - 1).toNat = numDigits n - 2 := by omega
  rw [ec] at hl1 hpw
  rw [specFormula_eq] at h3 ⊢
  unfold INT_MAX at h3
  simp only [Nat.cast_zero] at hl0
  unfold mainC
  rw [ilog10_eq h1, Option.some_bind, mainFillC_eq h1 h2, Option.some_bind, hl1,
    Option.some_bind, hl0, Option.some_bind, hpw, Option.some_bind,
    checked_eq_some (by omega) (by omega), Option.some_bind,
    checked_eq_some (by omega) (by omega), Option.some_bind, e2,
    sumLoopC_digits n _ hd _ (by omega) _ (by omega) (by omega)]

/-! ## Array accesses -/

theorem sumLoop_isSome (n : Int) (d : Nat) (i : Nat) (hi : i < d) (w : Int) :
    ∃ r, sumLoop ((List.range d).map fun j => some (digit n j)) i w = some r := by
  induction i generalizing w with
  | zero => exact ⟨w, rfl⟩
  | succ i ih =>
    have hl := load_digits n d (i + 1) hi
    push_cast at hl
    unfold sumLoop
    rw [hl, Option.some_bind]
    exact ih (by omega) _

theorem main_isSome {n : Int} (h1 : 1 ≤ n) (h2 : n ≤ INT_MAX) : ∃ w, main n = some w := by
  have hpos : 1 ≤ numDigits n := by unfold numDigits; omega
  have hl1 := load_digits n (numDigits n) (numDigits n - 1) (by omega)
  have hl0 := load_digits n (numDigits n) 0 (by omega)
  have ec : ((numDigits n - 1 : Nat) : Int) = (numDigits n : Int) - 1 := by omega
  have e2 : ((numDigits n : Int) - 1 - 1).toNat = numDigits n - 2 := by omega
  rw [ec] at hl1
  simp only [Nat.cast_zero] at hl0
  unfold main
  rw [ilog10_eq h1, Option.some_bind, mainFill_eq h1 h2, Option.some_bind, hl1,
    Option.some_bind, hl0, Option.some_bind, e2]
  exact sumLoop_isSome n _ _ (by omega) _

theorem mem_fillIndices (k : Nat) (s i : Int) (h : i ∈ fillIndices k s) :
    s ≤ i ∧ i < s + k := by
  induction k generalizing s with
  | zero => simp [fillIndices] at h
  | succ k ih =>
    unfold fillIndices at h
    rcases List.mem_cons.1 h with h | h
    · subst h; push_cast; omega
    · have := ih _ h
      push_cast; omega

theorem mem_sumIndices (j : Nat) (i : Int) (h : i ∈ sumIndices j) : 1 ≤ i ∧ i ≤ j := by
  induction j with
  | zero => simp [sumIndices] at h
  | succ j ih =>
    unfold sumIndices at h
    rcases List.mem_cons.1 h with h | h
    · subst h; push_cast; omega
    · have := ih h
      push_cast; omega

/-! ## `power` in general -/

theorem wrap32_mul_wrap32 (x a : Int) : wrap32 (wrap32 x * a) = wrap32 (x * a) := by
  have h1 : wrap32 x % 4294967296 = x % 4294967296 := by unfold wrap32; omega
  have h2 : (wrap32 x * a) % 4294967296 = (x * a) % 4294967296 := by
    rw [Int.mul_emod, h1, ← Int.mul_emod]
  generalize wrap32 x * a = u at h2
  generalize x * a = v at h2
  unfold wrap32
  omega

theorem wrap32_wrap32 (x : Int) : wrap32 (wrap32 x) = wrap32 x := by
  unfold wrap32; omega

theorem powerLoop_eq (a : Int) (k : Nat) (w : Int) :
    powerLoop a (k + 1) w = wrap32 (w * a ^ (k + 1)) := by
  induction k generalizing w with
  | zero => simp [powerLoop]
  | succ k ih =>
    have e : w * a ^ (k + 1 + 1) = w * a * a ^ (k + 1) := by ring
    rw [powerLoop, ih, wrap32_mul_wrap32, e]

theorem power_eq_wrap32 (a b : Int) : power a b = wrap32 (a ^ b.toNat) := by
  unfold power
  rcases Nat.eq_zero_or_pos b.toNat with h | h
  · rw [h]; simp [powerLoop, wrap32]
  · obtain ⟨k, hk⟩ : ∃ k, b.toNat = k + 1 := ⟨b.toNat - 1, by omega⟩
    rw [hk, powerLoop_eq, one_mul]

theorem numDigits_57 : numDigits 57 = 2 :=
  numDigits_eq_of_bounds 1 (by decide) (by decide)

theorem numDigits_1230 : numDigits 1230 = 4 :=
  numDigits_eq_of_bounds 3 (by decide) (by decide)

theorem numDigits_1234 : numDigits 1234 = 4 :=
  numDigits_eq_of_bounds 3 (by decide) (by decide)

theorem specFormula_1230 : specFormula 1230 = 231 := by
  unfold specFormula; rw [numDigits_1230]; decide

theorem specFormula_1234 : specFormula 1234 = 4231 := by
  unfold specFormula; rw [numDigits_1234]; decide

/-! ## The claims -/

/-- C1 (as stated, refuted): on the input 123 `main` prints 321, whereas moving
the leading digit to the end, `(n mod 10^(d-1)) * 10 + floor(n / 10^(d-1))`,
gives 231. -/
theorem rotate_contract_fails_at_123 :
    main 123 = some 321 ∧ rotateSpec 123 = 231 ∧ main 123 ≠ some (rotateSpec 123) := by
  refine ⟨by decide, rotateSpec_123, ?_⟩
  rw [rotateSpec_123]; decide

/-- C1 (amended): for every input `n ≥ 10` of type `int` for which the exact
result fits in an `int` (so that no operation overflows), `main` prints the
integer obtained by exchanging the leading and the last decimal digit of `n`,
`(n mod 10) * 10^(d-1) + (n mod 10^(d-1) - n mod 10) + floor(n / 10^(d-1))`. -/
theorem main_exchanges_end_digits (n : Int) (h1 : 10 ≤ n) (h2 : n ≤ INT_MAX)
    (h3 : swapEnds n ≤ INT_MAX) : main n = some (swapEnds n) := by
  rw [← specFormula_eq_swapEnds h1] at h3 ⊢
  exact main_eq_of_fits (by omega) h2 h3

/-- The amended C1 at the input 123, where the exchange gives 321. -/
theorem main_exchanges_end_digits_witness :
    (10 : Int) ≤ 123 ∧ swapEnds 123 = 321 ∧ main 123 = some (swapEnds 123) :=
  ⟨by decide, swapEnds_123,
    main_exchanges_end_digits 123 (by decide) (by decide) (by rw [swapEnds_123]; decide)⟩

/-- C2: for every input `n ≥ 1` of type `int` for which the exact value of the
formula fits in an `int` (all its terms are non-negative, so then no product
and no partial sum overflows), `main` prints
`lead*10^0 + first*10^(d-1) + Σ_{i=1}^{d-2} digit[i]*10^i`
with `lead = digit[d-1]` and `first = digit[0]`. -/
theorem main_prints_specFormula (n : Int) (h1 : 1 ≤ n) (h2 : n ≤ INT_MAX)
    (h3 : specFormula n ≤ INT_MAX) : main n = some (specFormula n) :=
  main_eq_of_fits h1 h2 h3

/-- C2 at the input 4567, where the formula gives 7564. -/
theorem main_prints_specFormula_witness :
    (1 : Int) ≤ 4567 ∧ specFormula 4567 = 7564 ∧ main 4567 = some (specFormula 4567) :=
  ⟨by decide, specFormula_4567,
    main_prints_specFormula 4567 (by decide) (by decide) (by rw [specFormula_4567]; decide)⟩

/-- C3 (the code at the failing input): on the one-digit input 5 `main` prints
10, not 5. -/
theorem main_doubles_five : main 5 = some 10 ∧ main 5 ≠ some 5 := by
  constructor <;> decide

/-- C4 (as stated, refuted): on the input 123 `main` does not print 231. -/
theorem main_123_ne_231 : main 123 ≠ some 231 := by
  decide

/-- C4 (amended): on the input 123 `main` prints 321, the leading digit 1 and
the last digit 3 having exchanged their places. -/
theorem main_123 : main 123 = some 321 := by
  decide

/-- C5 (as stated, refuted): on the input 4567 `main` does not print 5674. -/
theorem main_4567_ne_5674 : main 4567 ≠ some 5674 := by
  decide

/-- C5 (amended): on the input 4567 `main` prints 7564. -/
theorem main_4567 : main 4567 = some 7564 := by
  decide

/-- C6: on the input 105 the array holds the digits 5, 0, 1 (least-significant
first) and `main` prints `1 + 5*100 + 0*10 = 501`, which is not the rotation
51 of the contract. -/
theorem main_105 :
    mainFill 105 = some [some 5, some 0, some 1] ∧ main 105 = some 501 ∧
      (1 + 5 * 100 + 0 * 10 : Int) = 501 ∧ rotateSpec 105 = 51 :=
  ⟨by decide, by decide, by decide, rotateSpec_105⟩

/-- C7 (as stated, refuted): applying `main` twice to 12 gives 12 again,
although 12 has two digits and is not a palindrome. -/
theorem twice_12_not_palindrome :
    (main 12).bind main = some 12 ∧ ¬ ((12 : Int) < 10 ∨ isPalindrome 12) := by
  refine ⟨by decide, ?_⟩
  rintro (h | h)
  · exact absurd h (by decide)
  · exact not_isPalindrome_12 h

/-- C7 (amended): for every input `n ≥ 1` of type `int` whose exact result
fits in an `int`, if applying `main` twice gives `n` again then `n` has a
single digit or the last decimal digit of `n` is not 0. -/
theorem twice_fixed_imp (n : Int) (_h1 : 1 ≤ n) (h2 : n ≤ INT_MAX)
    (h3 : specFormula n ≤ INT_MAX) (h : (main n).bind main = some n) :
    n < 10 ∨ n % 10 ≠ 0 := by
  by_contra hc
  push_neg at hc
  exact twice_ne_of_mult_ten hc.1 h2 h3 hc.2 h

/-- The amended C7 at the input 12, which two applications give back. -/
theorem twice_fixed_imp_witness :
    (main 12).bind main = some 12 ∧ ((12 : Int) < 10 ∨ (12 : Int) % 10 ≠ 0) :=
  ⟨by decide, twice_fixed_imp 12 (by decide) (by decide)
    (by rw [specFormula_12]; decide) (by decide)⟩

/-- C8 (the code at the failing input): on the one-digit input 1 `main` prints
2, and on 2 it prints 4, so a second application changes the value. -/
theorem twice_one : main 1 = some 2 ∧ main 2 = some 4 ∧ (main 1).bind main ≠ main 1 := by
  refine ⟨?_, ?_, ?_⟩ <;> decide

/-- C9: there is an input `n ≥ 10` (namely 12) on which a second application of
`main` changes the value: `main` prints 21 on 12 and 12 on 21. -/
theorem not_idempotent_multi_digit :
    ∃ n m r : Int, 10 ≤ n ∧ main n = some m ∧ main m = some r ∧ r ≠ m :=
  ⟨12, 21, 12, by decide, by decide, by decide, by decide⟩

/-- C10: for every input `n ≥ 1` of type `int`, with `d = floor(log10(n)) + 1`,
the first loop of `main` writes all `d` cells of `A`; cell `i` holds
`floor(n / 10^i) mod 10`, which lies in `0..9`; the top cell `A[d-1]` is not
zero; and the sum of `A[i] * 10^i` over all cells is `n`. -/
theorem mainFill_base_ten (n : Int) (h1 : 1 ≤ n) (h2 : n ≤ INT_MAX) :
    ∃ A : List Int, mainFill n = some (A.map some) ∧
      A.length = Nat.log 10 n.toNat + 1 ∧
      (∀ i, i < A.length → A.get? i = some (n / 10 ^ i % 10) ∧
        0 ≤ n / 10 ^ i % 10 ∧ n / 10 ^ i % 10 ≤ 9) ∧
      (∃ a, A.get? (A.length - 1) = some a ∧ a ≠ 0) ∧
      ((List.range A.length).map fun i => A.getD i 0 * 10 ^ i).sum = n := by
  have hd := numDigits_pos n
  have hlen : ((List.range (numDigits n)).map (digit n)).length = numDigits n := by simp
  refine ⟨(List.range (numDigits n)).map (digit n), ?_, ?_, ?_, ?_, ?_⟩
  · rw [mainFill_eq h1 h2, List.map_map]; rfl
  · rw [hlen]; rfl
  · intro i hi
    rw [hlen] at hi
    exact ⟨get?_digits n _ i hi, digit_nonneg n i, digit_le_nine n i⟩
  · have ht := digit_top h1
    refine ⟨digit n (numDigits n - 1), ?_, by omega⟩
    rw [hlen]
    exact get?_digits n _ _ (by omega)
  · rw [hlen]
    refine Eq.trans ?_ (sum_digits_eq_self h1)
    congr 1
    apply List.map_congr_left
    intro i hi
    rw [getD_digits n _ i (List.mem_range.1 hi)]

/-- C10 at the input 105, whose array is 5, 0, 1. -/
theorem mainFill_base_ten_witness :
    mainFill 105 = some [some 5, some 0, some 1] ∧
    ∃ A : List Int, mainFill 105 = some (A.map some) ∧
      A.length = Nat.log 10 (105 : Int).toNat + 1 ∧
      (∀ i, i < A.length → A.get? i = some (105 / 10 ^ i % 10) ∧
        0 ≤ (105 : Int) / 10 ^ i % 10 ∧ (105 : Int) / 10 ^ i % 10 ≤ 9) ∧
      (∃ a, A.get? (A.length - 1) = some a ∧ a ≠ 0) ∧
      ((List.range A.length).map fun i => A.getD i 0 * 10 ^ i).sum = 105 :=
  ⟨by decide, mainFill_base_ten 105 (by decide) (by decide)⟩

/-- C11: for every input `n ≥ 10` of type `int` whose exact result fits in an
`int`, the printed value `w` has the last digit of `n` at place `d-1`, the
leading digit of `n` at place `0`, and at every place `i` with
`1 ≤ i ≤ d-2` the digit of `n`: `floor(w / 10^i) mod 10 = floor(n / 10^i) mod 10`. -/
theorem result_digit_places (n : Int) (h1 : 10 ≤ n) (h2 : n ≤ INT_MAX)
    (h3 : specFormula n ≤ INT_MAX) :
    ∃ w, main n = some w ∧
      w / 10 ^ (numDigits n - 1) % 10 = n % 10 ∧
      w % 10 = n / 10 ^ (numDigits n - 1) % 10 ∧
      ∀ i : Nat, 1 ≤ i → i ≤ numDigits n - 2 → w / 10 ^ i % 10 = n / 10 ^ i % 10 := by
  obtain ⟨q, mid, a, hk, hq1, hq9, ha0, ha9, hm0, hm10, hmP, hn, ha, hq, hw⟩ :=
    shape_of_ge_ten h1
  obtain ⟨w1, w2, w3⟩ := shape_div_mod hk (by omega) hq9 hm0 hm10 hmP hw
  refine ⟨specFormula n, main_eq_of_fits (by omega) h2 h3, ?_, ?_, ?_⟩
  · rw [w1, ← ha]; omega
  · rw [w3]
    have : digit n (numDigits n - 1) = n / 10 ^ (numDigits n - 1) % 10 := rfl
    rw [← this, ← hq]
  · intro i hi1 hi2
    have dw := shape_digit (by omega) hq9 hm10 hw i hi1 (by omega)
    have dn := shape_digit ha0 ha9 hm10 hn i hi1 (by omega)
    unfold digit at dw dn
    rw [dw, dn]

/-- C11 at the input 4567, which is printed as 7564. -/
theorem result_digit_places_witness :
    main 4567 = some 7564 ∧
    ∃ w, main 4567 = some w ∧
      w / 10 ^ (numDigits 4567 - 1) % 10 = 4567 % 10 ∧
      w % 10 = 4567 / 10 ^ (numDigits 4567 - 1) % 10 ∧
      ∀ i : Nat, 1 ≤ i → i ≤ numDigits 4567 - 2 → w / 10 ^ i % 10 = 4567 / 10 ^ i % 10 :=
  ⟨by decide, result_digit_places 4567 (by decide) (by decide)
    (by rw [specFormula_4567]; decide)⟩

/-- C12: for every input `n ≥ 10` of type `int` whose exact result fits in an
`int`, the printed value is below `10^(d-1)` exactly when the last digit of
`n` is 0; when it is not 0 the printed value has `d` digits, as `n` has. -/
theorem result_digit_count (n : Int) (h1 : 10 ≤ n) (h2 : n ≤ INT_MAX)
    (h3 : specFormula n ≤ INT_MAX) :
    ∃ w, main n = some w ∧
      (w < 10 ^ (numDigits n - 1) ↔ n % 10 = 0) ∧
      (n % 10 ≠ 0 → numDigits w = numDigits n) := by
  obtain ⟨q, mid, a, hk, hq1, hq9, ha0, ha9, hm0, hm10, hmP, hn, ha, hq, hw⟩ :=
    shape_of_ge_ten h1
  have hpos : (0 : Int) < 10 ^ (numDigits n - 1) := by positivity
  refine ⟨specFormula n, main_eq_of_fits (by omega) h2 h3, ?_, ?_⟩
  · rw [← ha]
    constructor
    · intro hlt
      by_contra hne
      have := (shape_bounds (by omega) ha9 (by omega) hq9 hm0 hmP hw).1
      omega
    · intro h0
      rw [hw, h0]
      omega
  · intro hne
    rw [← ha] at hne
    have := (shape_swapEnds hk (by omega) ha9 (by omega) hq9 hm0 hm10 hmP hw).1
    omega

/-- C12 at the input 1230, which is printed as 231. -/
theorem result_digit_count_witness :
    main 1230 = some 231 ∧
    ∃ w, main 1230 = some w ∧
      (w < 10 ^ (numDigits 1230 - 1) ↔ (1230 : Int) % 10 = 0) ∧
      ((1230 : Int) % 10 ≠ 0 → numDigits w = numDigits 1230) :=
  ⟨by decide, result_digit_count 1230 (by decide) (by decide)
    (by rw [specFormula_1230]; decide)⟩

/-- C13: for every input `n ≥ 10` of type `int` that does not end in 0 and
whose exact result fits in an `int`, applying `main` twice gives `n` again,
palindrome or not. -/
theorem twice_restores (n : Int) (h1 : 10 ≤ n) (h2 : n ≤ INT_MAX)
    (h3 : specFormula n ≤ INT_MAX) (h4 : n % 10 ≠ 0) : (main n).bind main = some n := by
  obtain ⟨q, mid, a, hk, hq1, hq9, ha0, ha9, hm0, hm10, hmP, hn, ha, hq, hw⟩ :=
    shape_of_ge_ten h1
  rw [← ha] at h4
  obtain ⟨b0, b1⟩ := shape_bounds (by omega) ha9 (by omega) hq9 hm0 hmP hw
  obtain ⟨hd, hs⟩ := shape_swapEnds hk (by omega) ha9 (by omega) hq9 hm0 hm10 hmP hw
  have hP10 : (10 : Int) ≤ 10 ^ (numDigits n - 1) := by omega
  have hw10 : 10 ≤ specFormula n := by omega
  have hback : specFormula (specFormula n) = n := by
    rw [specFormula_eq_swapEnds hw10, hs]
    exact hn.symm
  rw [main_eq_of_fits (by omega) h2 h3, Option.some_bind,
    main_eq_of_fits (by omega) h3 (by rw [hback]; exact h2), hback]

/-- C13 at the input 1234: 1234 is printed as 4231 and 4231 as 1234. -/
theorem twice_restores_witness :
    main 1234 = some 4231 ∧ main 4231 = some 1234 ∧ (main 1234).bind main = some 1234 :=
  ⟨by decide, by decide, twice_restores 1234 (by decide) (by decide)
    (by rw [specFormula_1234]; decide) (by decide)⟩

/-- C14: for every one-digit input `n` (1 to 9), `int(log10(n))` is 0, the
array is the single cell `A[0] = n`, the second loop reads nothing, and
`main` prints `A[0] + A[0] * power(10, 0)`, that is `2 * n`. -/
theorem main_one_digit (n : Int) (h1 : 1 ≤ n) (h2 : n ≤ 9) :
    ilog10 n = some 0 ∧ mainFill n = some [some n] ∧ sumIndices ((0 : Int) - 1).toNat = [] ∧
      main n = some (n + n * power 10 0) ∧ main n = some (2 * n) := by
  interval_cases n <;> decide

/-- C14 at the input 7, which is printed as 14. -/
theorem main_one_digit_witness : main 7 = some 14 ∧ mainFill 7 = some [some 7] :=
  ⟨(main_one_digit 7 (by decide) (by decide)).2.2.2.2,
    (main_one_digit 7 (by decide) (by decide)).2.1⟩

/-- C15: for every two-digit input `n` (10 to 99) `main` prints
`(n mod 10) * 10 + floor(n / 10)`, which is also the rotation of the contract. -/
theorem main_two_digits (n : Int) (h1 : 10 ≤ n) (h2 : n ≤ 99) :
    main n = some (n % 10 * 10 + n / 10) ∧ rotateSpec n = n % 10 * 10 + n / 10 := by
  have hd : numDigits n = 2 := numDigits_eq_of_bounds 1 (by simpa using h1) (by norm_num; omega)
  have hs : specFormula n = n % 10 * 10 + n / 10 := by
    rw [specFormula_eq_swapEnds h1]
    unfold swapEnds
    rw [hd]
    norm_num
  constructor
  · rw [← hs]
    exact main_eq_of_fits (by omega) (by unfold INT_MAX; omega)
      (by rw [hs]; unfold INT_MAX; omega)
  · unfold rotateSpec
    rw [hd]
    norm_num

/-- C15 at the input 57, which is printed as 75. -/
theorem main_two_digits_witness :
    main 57 = some 75 ∧
      (main 57 = some (57 % 10 * 10 + 57 / 10) ∧ rotateSpec 57 = 57 % 10 * 10 + 57 / 10) :=
  ⟨by decide, main_two_digits 57 (by decide) (by decide)⟩

/-- C16: for every input `n` with `1 ≤ n < 10^9` the run with checked
arithmetic succeeds, so no value computed by `power` or `main` (no power of
ten, no product, no partial sum) leaves the range of `int`; the 32-bit run
and the checked run both print the exact value of the formula; and for
`d ≥ 2` that value is below `10^d`. -/
theorem no_overflow_below_10_pow_9 (n : Int) (h1 : 1 ≤ n) (h2 : n < 10 ^ 9) :
    mainC n = some (specFormula n) ∧ main n = some (specFormula n) ∧
      (2 ≤ numDigits n → specFormula n < 10 ^ numDigits n) := by
  have hfit := specFormula_fits_of_lt h1 h2
  have hmax : n ≤ INT_MAX := by unfold INT_MAX; omega
  refine ⟨mainC_eq_of_fits h1 hmax hfit, main_eq_of_fits h1 hmax hfit, fun hd => ?_⟩
  apply specFormula_lt_pow
  by_contra hc
  have := numDigits_eq_one h1 (by omega)
  omega

/-- C16 at the input 999999999, the largest one in the range. -/
theorem no_overflow_below_10_pow_9_witness :
    mainC 999999999 = some 999999999 ∧
      (mainC 999999999 = some (specFormula 999999999) ∧
        main 999999999 = some (specFormula 999999999) ∧
        (2 ≤ numDigits 999999999 → specFormula 999999999 < 10 ^ numDigits 999999999)) :=
  ⟨by decide, no_overflow_below_10_pow_9 999999999 (by decide) (by decide)⟩

/-- C17: for every input `n ≥ 1` of type `int`, with `l = int(log10(n))` and
the array `A` of `l + 1` cells, `main` runs to its end without an access
outside `A`, without a read of an unwritten cell and without a division by
zero: the first loop writes at indices `0..l` and divides by
`power(10, i) ≥ 1`, the reads `A[l]` and `A[0]` are inside `A`, and the second
loop reads at indices `1..l-1` only. -/
theorem accesses_in_bounds (n : Int) (h1 : 1 ≤ n) (h2 : n ≤ INT_MAX) :
    ∃ (l : Int) (A : List (Option Int)) (w : Int),
      ilog10 n = some l ∧ l = Nat.log 10 n.toNat ∧
      mainFill n = some A ∧ (A.length : Int) = l + 1 ∧ main n = some w ∧
      (∀ i ∈ fillIndices (l + 1).toNat 0, 0 ≤ i ∧ i < A.length ∧ 1 ≤ power 10 i) ∧
      (0 ≤ l ∧ l < A.length) ∧ (0 : Int) < A.length ∧
      (∀ i ∈ sumIndices (l - 1).toNat, 1 ≤ i ∧ i ≤ l - 1 ∧ i < A.length) := by
  have hd := numDigits_le_ten h1 h2
  have hpos := numDigits_pos n
  obtain ⟨w, hw⟩ := main_isSome h1 h2
  have hlen : (((List.range (numDigits n)).map fun j => some (digit n j)).length : Int)
      = (numDigits n : Int) - 1 + 1 := by simp
  refine ⟨(numDigits n : Int) - 1, _, w, ilog10_eq h1, by simp [numDigits],
    mainFill_eq h1 h2, hlen, hw, ?_, ?_, ?_, ?_⟩
  · intro i hi
    have hb := mem_fillIndices _ _ _ hi
    have e : (((numDigits n : Int) - 1 + 1).toNat : Int) = numDigits n := by omega
    rw [e] at hb
    obtain ⟨j, rfl⟩ := Int.eq_ofNat_of_zero_le hb.1
    have hp := power_ten j (by omega)
    have : (1 : Int) ≤ 10 ^ j := one_le_pow₀ (by norm_num)
    refine ⟨hb.1, by rw [hlen]; omega, ?_⟩
    rw [hp]; exact this
  · rw [hlen]; omega
  · rw [hlen]; omega
  · intro i hi
    have hb := mem_sumIndices _ _ hi
    rw [hlen]
    omega

/-- C17 at the input 4567: writes at 0, 1, 2, 3 and reads of the second loop
at 2, 1. -/
theorem accesses_in_bounds_witness :
    fillIndices 4 0 = [0, 1, 2, 3] ∧ sumIndices 2 = [2, 1] ∧
    ∃ (l : Int) (A : List (Option Int)) (w : Int),
      ilog10 4567 = some l ∧ l = Nat.log 10 (4567 : Int).toNat ∧
      mainFill 4567 = some A ∧ (A.length : Int) = l + 1 ∧ main 4567 = some w ∧
      (∀ i ∈ fillIndices (l + 1).toNat 0, 0 ≤ i ∧ i < A.length ∧ 1 ≤ power 10 i) ∧
      (0 ≤ l ∧ l < A.length) ∧ (0 : Int) < A.length ∧
      (∀ i ∈ sumIndices (l - 1).toNat, 1 ≤ i ∧ i ≤ l - 1 ∧ i < A.length) :=
  ⟨by decide, by decide, accesses_in_bounds 4567 (by decide) (by decide)⟩

/-- C18: `power a b` is defined for all arguments (the loop runs `b` times,
not at all for `b ≤ 0`); for `b ≥ 0` it is `a^b` reduced to 32 bits, hence
`a^b` itself when that fits in an `int`; `power a 0 = 1`; and for `b ≤ 0` it
is 1. -/
theorem power_spec (a b : Int) :
    (0 ≤ b → power a b = wrap32 (a ^ b.toNat)) ∧
      (0 ≤ b → INT_MIN ≤ a ^ b.toNat → a ^ b.toNat ≤ INT_MAX → power a b = a ^ b.toNat) ∧
      power a 0 = 1 ∧ (b ≤ 0 → power a b = 1) := by
  refine ⟨fun _ => power_eq_wrap32 a b, fun _ h0 h1 => ?_, rfl, fun hb => ?_⟩
  · rw [power_eq_wrap32]
    exact wrap32_eq_self h0 h1
  · have : b.toNat = 0 := by omega
    unfold power
    rw [this]; rfl

/-- C18 at concrete arguments: `10^9` fits, `10^10` wraps around, a negative
base, and a negative exponent. -/
theorem power_spec_witness :
    power 10 9 = 1000000000 ∧ power 10 10 = wrap32 (10 ^ 10) ∧
      wrap32 (10 ^ 10) = 1410065408 ∧ power (-3) 3 = -27 ∧ power 7 (-2) = 1 :=
  ⟨(power_spec 10 9).2.1 (by decide) (by decide) (by decide),
    (power_spec 10 10).1 (by decide), by decide,
    (power_spec (-3) 3).2.1 (by decide) (by decide) (by decide),
    (power_spec 7 (-2)).2.2.2 (by decide)⟩

end Lunch
